import Mathlib

/-!
Verification of pkg/controller/volume/selinuxwarning/translator/selinux_translator.go
(the ControllerSELinuxTranslator label encoder and conflict detector).

Go strings are modelled as `List Char`; the relevant pieces of Go's strings
library (`SplitN` with a one-character separator and `Join`) are embedded
directly, following their documented semantics.
-/

/-- The four-field label record (v1.SELinuxOptions): User, Role, Type, Level.
Go strings, so each field is a `List Char`; the empty list is Go's `""`. -/
structure SELinuxOptions where
  user : List Char
  role : List Char
  type : List Char
  level : List Char
deriving DecidableEq

/-- Split off the segment of `s` before the first occurrence of `sep`,
returning (segment, rest), or `none` when `sep` does not occur. This is one
iteration of the splitting loop inside Go's `strings.SplitN`. -/
def splitFirst (sep : Char) : List Char → Option (List Char × List Char)
  | [] => none
  | c :: rest =>
    if c = sep then some ([], rest)
    else
      match splitFirst sep rest with
      | none => none
      | some (seg, rest2) => some (c :: seg, rest2)

/-- Go's `strings.SplitN(s, sep, n)` for a one-character separator and n ≥ 0:
at most `n` substrings; the last substring holds the unsplit remainder.
`SplitN("", sep, n)` with n ≥ 1 is `[""]`. -/
def goSplitN (sep : Char) : Nat → List Char → List (List Char)
  | 0, _ => []
  | 1, s => [s]
  | n + 2, s =>
    match splitFirst sep s with
    | none => [s]
    | some (seg, rest) => seg :: goSplitN sep (n + 1) rest

/-- Go's `strings.Join(elems, sep)`. -/
def goJoin (sep : List Char) : List (List Char) → List Char
  | [] => []
  | [x] => x
  | x :: xs => x ++ sep ++ goJoin sep xs

/-- `SELinuxOptionsToFileLabel(opts)`: returns the pair (label, error).
The Go function returns a nil error on every path, modelled as `none`.
A nil `opts` yields `""`; otherwise the four fields are joined with ":",
and the all-empty join `":::"` is collapsed to `""`. -/
def SELinuxOptionsToFileLabel (opts : Option SELinuxOptions) :
    List Char × Option (List Char) :=
  match opts with
  | none => ([], none)
  | some o =>
    let parts := [o.user, o.role, o.type, o.level]
    let label := goJoin [':'] parts
    if label = [':', ':', ':'] then ([], none)
    else (label, none)

/-- Right-pad a part list with empty strings up to length `n`: the
`for len(partsB) < len(partsA) { partsB = append(partsB, "") }` loop
in `Conflicts`. -/
def padRight (l : List (List Char)) (n : Nat) : List (List Char) :=
  l ++ List.replicate (n - l.length) []

/-- The comparison loop of `Conflicts` (`for i := range partsA`): equal
fields and fields with an empty side are skipped; two non-empty unequal
fields return true. It is only ever called with lists of equal length
(partsB has been padded to partsA's length). -/
def fieldsConflict : List (List Char) → List (List Char) → Bool
  | [], _ => false
  | _ :: _, [] => false
  | a :: as, b :: bs =>
    if a = b then fieldsConflict as bs
    else if a = [] then fieldsConflict as bs
    else if b = [] then fieldsConflict as bs
    else true

/-- `Conflicts(labelA, labelB)`: split both labels on ":" with max count 4,
reorder so the first list is the longer one, pad the second to the first's
length, then run the comparison loop. -/
def Conflicts (labelA labelB : List Char) : Bool :=
  let partsA := goSplitN ':' 4 labelA
  let partsB := goSplitN ':' 4 labelB
  let p := if partsA.length < partsB.length then (partsB, partsA) else (partsA, partsB)
  fieldsConflict p.1 (padRight p.2 p.1.length)

/-- Spec-side conflict test for one position: the two fields are unequal and
both non-empty. -/
def fieldDiff (a b : List Char) : Bool :=
  decide (a ≠ b) && decide (a ≠ []) && decide (b ≠ [])

/-- Spec-side conflict detector (for the refinement claim): split each input
on ":" with max count 4, right-pad the shorter part list with empty strings
to the longer list's length, and ask whether some position holds two
non-empty unequal fields. -/
def specLabelsConflict (a b : List Char) : Bool :=
  let pa := goSplitN ':' 4 a
  let pb := goSplitN ':' 4 b
  let n := max pa.length pb.length
  ((padRight pa n).zip (padRight pb n)).any fun p => fieldDiff p.1 p.2

/-! ### Helper lemmas -/

/-- The example pair from Conflicts's Go doc comment: a full label conflicts
with ":::s0:c98,c99" (differing non-empty Level). -/
lemma conflicts_doc_example_pos :
    Conflicts "system_u:system_r:container_t:s0:c1,c2".data
      ":::s0:c98,c99".data = true := by decide

/-- The example pair from Conflicts's Go doc comment: a full label does not
conflict with ":::s0:c1,c2" (empty fields are incomparable). -/
lemma conflicts_doc_example_neg :
    Conflicts "system_u:system_r:container_t:s0:c1,c2".data
      ":::s0:c1,c2".data = false := by decide

lemma padRight_length (l : List (List Char)) (n : Nat) :
    (padRight l n).length = max l.length n := by
  simp [padRight]
  omega

lemma padRight_of_le {l : List (List Char)} {n : Nat} (h : n ≤ l.length) :
    padRight l n = l := by
  simp [padRight, Nat.sub_eq_zero_of_le h]

lemma mem_padRight {l : List (List Char)} {n : Nat} {x : List Char}
    (h : x ∈ padRight l n) : x ∈ l ∨ x = [] := by
  rcases List.mem_append.mp h with h' | h'
  · exact Or.inl h'
  · exact Or.inr (List.eq_of_mem_replicate h')

lemma fieldDiff_comm (a b : List Char) : fieldDiff a b = fieldDiff b a := by
  by_cases hab : a = b <;> by_cases ha : a = [] <;> by_cases hb : b = [] <;>
    simp_all [fieldDiff, Ne.symm]

lemma fieldDiff_eq_true {a b : List Char} :
    fieldDiff a b = true ↔ a ≠ b ∧ a ≠ [] ∧ b ≠ [] := by
  simp [fieldDiff, and_assoc]

lemma fieldDiff_left_empty (b : List Char) : fieldDiff [] b = false := by
  simp [fieldDiff]

lemma fieldDiff_right_empty (a : List Char) : fieldDiff a [] = false := by
  simp [fieldDiff]

lemma fieldDiff_self (a : List Char) : fieldDiff a a = false := by
  simp [fieldDiff]

lemma fieldsConflict_cons (a b : List Char) (as bs : List (List Char)) :
    fieldsConflict (a :: as) (b :: bs) = (fieldDiff a b || fieldsConflict as bs) := by
  by_cases hab : a = b <;> by_cases ha : a = [] <;> by_cases hb : b = [] <;>
    simp_all [fieldsConflict, fieldDiff]

lemma fieldsConflict_eq_zip_any (xs : List (List Char)) :
    ∀ ys : List (List Char), xs.length = ys.length →
      fieldsConflict xs ys = (xs.zip ys).any fun p => fieldDiff p.1 p.2 := by
  induction xs with
  | nil => intro ys _; simp [fieldsConflict]
  | cons x xs ih =>
    intro ys h
    cases ys with
    | nil => simp at h
    | cons y ys =>
      rw [fieldsConflict_cons, List.zip_cons_cons, List.any_cons,
        ih ys (by simpa using h)]

lemma zip_any_fieldDiff_comm (xs : List (List Char)) :
    ∀ ys : List (List Char),
      ((xs.zip ys).any fun p => fieldDiff p.1 p.2) =
        ((ys.zip xs).any fun p => fieldDiff p.1 p.2) := by
  induction xs with
  | nil => intro ys; simp
  | cons x xs ih =>
    intro ys
    cases ys with
    | nil => simp
    | cons y ys => simp [List.any_cons, fieldDiff_comm x y, ih ys]

lemma fieldsConflict_of_all_empty_left (xs : List (List Char)) :
    ∀ ys : List (List Char), (∀ x ∈ xs, x = []) → fieldsConflict xs ys = false := by
  induction xs with
  | nil => intro ys _; simp [fieldsConflict]
  | cons x xs ih =>
    intro ys h
    cases ys with
    | nil => simp [fieldsConflict]
    | cons y ys =>
      have hx : x = [] := h x (by simp)
      rw [fieldsConflict_cons, hx, fieldDiff_left_empty,
        ih ys fun z hz => h z (by simp [hz]), Bool.false_or]

lemma fieldsConflict_of_all_empty_right (xs : List (List Char)) :
    ∀ ys : List (List Char), (∀ y ∈ ys, y = []) → fieldsConflict xs ys = false := by
  induction xs with
  | nil => intro ys _; simp [fieldsConflict]
  | cons x xs ih =>
    intro ys h
    cases ys with
    | nil => simp [fieldsConflict]
    | cons y ys =>
      have hy : y = [] := h y (by simp)
      rw [fieldsConflict_cons, hy, fieldDiff_right_empty,
        ih ys fun z hz => h z (by simp [hz]), Bool.false_or]

lemma fieldsConflict_self (xs : List (List Char)) : fieldsConflict xs xs = false := by
  induction xs with
  | nil => simp [fieldsConflict]
  | cons x xs ih => rw [fieldsConflict_cons, fieldDiff_self, ih, Bool.false_or]

lemma goSplitN_length_pos (c : Char) (n : Nat) (s : List Char) :
    0 < (goSplitN c (n + 1) s).length := by
  cases n with
  | zero => simp [goSplitN]
  | succ m =>
    unfold goSplitN
    rcases splitFirst c s with _ | ⟨seg, rest⟩ <;> simp

lemma goSplitN_length_le (c : Char) (n : Nat) :
    ∀ s : List Char, (goSplitN c (n + 1) s).length ≤ n + 1 := by
  induction n with
  | zero => intro s; simp [goSplitN]
  | succ m ih =>
    intro s
    unfold goSplitN
    rcases splitFirst c s with _ | ⟨seg, rest⟩
    · simp
    · simpa using ih rest

lemma splitFirst_append (c : Char) {u : List Char} (rest : List Char) (h : c ∉ u) :
    splitFirst c (u ++ c :: rest) = some (u, rest) := by
  induction u with
  | nil => simp [splitFirst]
  | cons a u ih =>
    have ha : ¬a = c := fun hac => h (by simp [hac])
    have ih' := ih fun hc => h (by simp [hc])
    simp [splitFirst, if_neg ha, ih']

lemma splitFirst_eq_some (c : Char) :
    ∀ {s seg rest : List Char}, splitFirst c s = some (seg, rest) →
      s = seg ++ c :: rest ∧ c ∉ seg := by
  intro s
  induction s with
  | nil => intro seg rest h; simp [splitFirst] at h
  | cons a s ih =>
    intro seg rest h
    by_cases ha : a = c
    · simp [splitFirst, ha] at h
      obtain ⟨rfl, rfl⟩ := h
      simp [ha]
    · simp only [splitFirst, if_neg ha] at h
      rcases hs : splitFirst c s with _ | ⟨seg', rest'⟩
      · rw [hs] at h; simp at h
      · rw [hs] at h
        simp at h
        obtain ⟨rfl, rfl⟩ := h
        obtain ⟨hseq, hmem⟩ := ih hs
        refine ⟨by simp [hseq], ?_⟩
        intro hc
        rcases List.mem_cons.mp hc with hc | hc
        · exact ha hc.symm
        · exact hmem hc

lemma splitFirst_eq_none (c : Char) :
    ∀ {s : List Char}, splitFirst c s = none → c ∉ s := by
  intro s
  induction s with
  | nil => intro _ h; simp at h
  | cons a s ih =>
    intro h hc
    by_cases ha : a = c
    · simp [splitFirst, ha] at h
    · simp only [splitFirst, if_neg ha] at h
      rcases hs : splitFirst c s with _ | p
      · rcases List.mem_cons.mp hc with hc | hc
        · exact ha hc.symm
        · exact ih hs hc
      · rw [hs] at h; simp at h

lemma count_of_splitFirst (c : Char) {s seg rest : List Char}
    (h : splitFirst c s = some (seg, rest)) :
    s.count c = rest.count c + 1 := by
  obtain ⟨rfl, hmem⟩ := splitFirst_eq_some c h
  simp [List.count_append, List.count_cons_self,
    List.count_eq_zero_of_not_mem hmem]

lemma goSplitN_length_eq (c : Char) (n : Nat) :
    ∀ s : List Char, n + 1 ≤ s.count c → (goSplitN c (n + 2) s).length = n + 2 := by
  induction n with
  | zero =>
    intro s h
    have hc : c ∈ s := List.count_pos_iff.mp (by omega)
    rcases hs : splitFirst c s with _ | ⟨seg, rest⟩
    · exact absurd hc (splitFirst_eq_none c hs)
    · simp [goSplitN, hs]
  | succ m ih =>
    intro s h
    have hc : c ∈ s := List.count_pos_iff.mp (by omega)
    rcases hs : splitFirst c s with _ | ⟨seg, rest⟩
    · exact absurd hc (splitFirst_eq_none c hs)
    · have hcount : m + 1 ≤ rest.count c := by
        have := count_of_splitFirst c hs
        omega
      show (goSplitN c (m + 3) s).length = m + 3
      unfold goSplitN
      rw [hs]
      simpa using ih rest hcount

lemma goJoin_four (sep u r t l : List Char) :
    goJoin sep [u, r, t, l] = u ++ sep ++ (r ++ sep ++ (t ++ sep ++ l)) := rfl

lemma label_length (o : SELinuxOptions) :
    (goJoin [':'] [o.user, o.role, o.type, o.level]).length =
      o.user.length + o.role.length + o.type.length + o.level.length + 3 := by
  simp [goJoin_four]
  omega

lemma goSplitN_succ_succ (c : Char) (n : Nat) (s : List Char) :
    goSplitN c (n + 2) s =
      match splitFirst c s with
      | none => [s]
      | some (seg, rest) => seg :: goSplitN c (n + 1) rest := rfl

lemma goSplitN_split (c : Char) (n : Nat) {u : List Char} (rest : List Char)
    (h : c ∉ u) :
    goSplitN c (n + 2) (u ++ c :: rest) = u :: goSplitN c (n + 1) rest := by
  rw [goSplitN_succ_succ, splitFirst_append c rest h]

lemma conflicts_of_lt {a b : List Char}
    (h : (goSplitN ':' 4 a).length < (goSplitN ':' 4 b).length) :
    Conflicts a b =
      fieldsConflict (goSplitN ':' 4 b)
        (padRight (goSplitN ':' 4 a) (goSplitN ':' 4 b).length) := by
  simp only [Conflicts]
  rw [if_pos h]

lemma conflicts_of_ge {a b : List Char}
    (h : ¬(goSplitN ':' 4 a).length < (goSplitN ':' 4 b).length) :
    Conflicts a b =
      fieldsConflict (goSplitN ':' 4 a)
        (padRight (goSplitN ':' 4 b) (goSplitN ':' 4 a).length) := by
  simp only [Conflicts]
  rw [if_neg h]

/-- The implementation's conflict detector agrees with the spec-side one. -/
lemma conflicts_eq_spec (a b : List Char) : Conflicts a b = specLabelsConflict a b := by
  by_cases h : (goSplitN ':' 4 a).length < (goSplitN ':' 4 b).length
  · have hn : max (goSplitN ':' 4 a).length (goSplitN ':' 4 b).length =
        (goSplitN ':' 4 b).length := Nat.max_eq_right (Nat.le_of_lt h)
    rw [conflicts_of_lt h]
    simp only [specLabelsConflict]
    rw [hn, padRight_of_le (Nat.le_refl (goSplitN ':' 4 b).length)]
    rw [fieldsConflict_eq_zip_any _ _ (by rw [padRight_length]; omega)]
    exact zip_any_fieldDiff_comm _ _
  · have h' : (goSplitN ':' 4 b).length ≤ (goSplitN ':' 4 a).length :=
      Nat.le_of_not_lt h
    have hn : max (goSplitN ':' 4 a).length (goSplitN ':' 4 b).length =
        (goSplitN ':' 4 a).length := Nat.max_eq_left h'
    rw [conflicts_of_ge h]
    simp only [specLabelsConflict]
    rw [hn, padRight_of_le (Nat.le_refl (goSplitN ':' 4 a).length)]
    exact fieldsConflict_eq_zip_any _ _ (by rw [padRight_length]; omega)

lemma zip_any_fieldDiff_iff (xs : List (List Char)) :
    ∀ ys : List (List Char), xs.length = ys.length →
      ((((xs.zip ys).any fun p => fieldDiff p.1 p.2) = true) ↔
        ∃ i < xs.length,
          xs.getD i [] ≠ ys.getD i [] ∧ xs.getD i [] ≠ [] ∧ ys.getD i [] ≠ []) := by
  induction xs with
  | nil => intro ys _; simp
  | cons x xs ih =>
    intro ys h
    cases ys with
    | nil => simp at h
    | cons y ys =>
      have hlen : xs.length = ys.length := by simpa using h
      simp only [List.zip_cons_cons, List.any_cons, Bool.or_eq_true, fieldDiff_eq_true]
      rw [ih ys hlen]
      constructor
      · rintro (⟨h1, h2, h3⟩ | ⟨i, hi, hd⟩)
        · exact ⟨0, by simp, by simpa using ⟨h1, h2, h3⟩⟩
        · exact ⟨i + 1, by simpa using hi, by simpa using hd⟩
      · rintro ⟨i, hi, hd⟩
        cases i with
        | zero => exact Or.inl (by simpa using hd)
        | succ j =>
          exact Or.inr ⟨j, by simpa using hi, by simpa using hd⟩

lemma zip_any_false_of_left_empty {xs ys : List (List Char)}
    (h : ∀ x ∈ xs, x = []) :
    ((xs.zip ys).any fun p => fieldDiff p.1 p.2) = false := by
  rw [Bool.eq_false_iff]
  intro hany
  rw [List.any_eq_true] at hany
  obtain ⟨p, hp, hdiff⟩ := hany
  have hx := h p.1 (List.of_mem_zip hp).1
  rw [hx, fieldDiff_left_empty] at hdiff
  exact Bool.false_ne_true hdiff

/-- `SELinuxOptionsToFileLabel` on a non-all-empty record is the plain
4-field join, with no collapse. -/
lemma fileLabel_eq_join (o : SELinuxOptions)
    (hne : ¬(o.user = [] ∧ o.role = [] ∧ o.type = [] ∧ o.level = [])) :
    (SELinuxOptionsToFileLabel (some o)).1 =
      o.user ++ ':' :: (o.role ++ ':' :: (o.type ++ ':' :: o.level)) := by
  obtain ⟨u, r, t, l⟩ := o
  dsimp only at hne ⊢
  simp only [SELinuxOptionsToFileLabel]
  by_cases hl : goJoin [':'] [u, r, t, l] = [':', ':', ':']
  · exfalso
    have hlen : (goJoin [':'] [u, r, t, l]).length =
        u.length + r.length + t.length + l.length + 3 := label_length ⟨u, r, t, l⟩
    rw [hl] at hlen
    simp only [List.length_cons, List.length_nil] at hlen
    exact hne ⟨List.eq_nil_of_length_eq_zero (by omega),
      List.eq_nil_of_length_eq_zero (by omega),
      List.eq_nil_of_length_eq_zero (by omega),
      List.eq_nil_of_length_eq_zero (by omega)⟩
  · rw [if_neg hl]
    simp [goJoin_four, List.append_assoc]

/-! ### Claim theorems -/

/-- C1: `Conflicts` returns true iff, after splitting each input on ':' with
max field count 4 and right-padding the shorter part list with empty strings
to the longer list's length, some position holds two non-empty, unequal
fields. -/
theorem conflicts_iff_exists_diff (a b : List Char) :
    Conflicts a b = true ↔
      ∃ i < max (goSplitN ':' 4 a).length (goSplitN ':' 4 b).length,
        (padRight (goSplitN ':' 4 a)
            (max (goSplitN ':' 4 a).length (goSplitN ':' 4 b).length)).getD i [] ≠
          (padRight (goSplitN ':' 4 b)
            (max (goSplitN ':' 4 a).length (goSplitN ':' 4 b).length)).getD i [] ∧
        (padRight (goSplitN ':' 4 a)
            (max (goSplitN ':' 4 a).length (goSplitN ':' 4 b).length)).getD i [] ≠ [] ∧
        (padRight (goSplitN ':' 4 b)
            (max (goSplitN ':' 4 a).length (goSplitN ':' 4 b).length)).getD i [] ≠ [] := by
  rw [conflicts_eq_spec]
  simp only [specLabelsConflict]
  have h1 : (padRight (goSplitN ':' 4 a)
      (max (goSplitN ':' 4 a).length (goSplitN ':' 4 b).length)).length =
      max (goSplitN ':' 4 a).length (goSplitN ':' 4 b).length := by
    rw [padRight_length]; omega
  have h2 : (padRight (goSplitN ':' 4 b)
      (max (goSplitN ':' 4 a).length (goSplitN ':' 4 b).length)).length =
      max (goSplitN ':' 4 a).length (goSplitN ':' 4 b).length := by
    rw [padRight_length]; omega
  rw [zip_any_fieldDiff_iff _ _ (h1.trans h2.symm), h1]

/-- C2: `SELinuxOptionsToFileLabel` yields the empty string exactly for the
nil record and the all-empty record. -/
theorem fileLabel_empty_iff (opts : Option SELinuxOptions) :
    (SELinuxOptionsToFileLabel opts).1 = [] ↔
      opts = none ∨ opts = some ⟨[], [], [], []⟩ := by
  cases opts with
  | none => simp [SELinuxOptionsToFileLabel]
  | some o =>
    obtain ⟨u, r, t, l⟩ := o
    simp only [SELinuxOptionsToFileLabel]
    by_cases hl : goJoin [':'] [u, r, t, l] = [':', ':', ':']
    · rw [if_pos hl]
      have hlen : (goJoin [':'] [u, r, t, l]).length =
          u.length + r.length + t.length + l.length + 3 := label_length ⟨u, r, t, l⟩
      rw [hl] at hlen
      simp only [List.length_cons, List.length_nil] at hlen
      have hu : u = [] := List.eq_nil_of_length_eq_zero (by omega)
      have hr : r = [] := List.eq_nil_of_length_eq_zero (by omega)
      have ht : t = [] := List.eq_nil_of_length_eq_zero (by omega)
      have hl' : l = [] := List.eq_nil_of_length_eq_zero (by omega)
      simp [hu, hr, ht, hl']
    · rw [if_neg hl]
      dsimp only
      have hlen : (goJoin [':'] [u, r, t, l]).length =
          u.length + r.length + t.length + l.length + 3 := label_length ⟨u, r, t, l⟩
      constructor
      · intro hnil
        rw [hnil] at hlen
        simp at hlen
      · rintro (h' | h')
        · exact absurd h' (by simp)
        · exfalso
          rw [Option.some_inj] at h'
          rw [show u = [] from congrArg SELinuxOptions.user h',
            show r = [] from congrArg SELinuxOptions.role h',
            show t = [] from congrArg SELinuxOptions.type h',
            show l = [] from congrArg SELinuxOptions.level h'] at hl
          exact hl rfl

/-- C3: `Conflicts` is symmetric, also across part lists of different
lengths. -/
theorem conflicts_comm (a b : List Char) : Conflicts a b = Conflicts b a := by
  rw [conflicts_eq_spec, conflicts_eq_spec]
  simp only [specLabelsConflict]
  rw [Nat.max_comm (goSplitN ':' 4 b).length (goSplitN ':' 4 a).length]
  exact zip_any_fieldDiff_comm _ _

/-- C4: the empty label never conflicts with anything. -/
theorem conflicts_nil_left (a : List Char) : Conflicts [] a = false := by
  rw [conflicts_eq_spec]
  simp only [specLabelsConflict]
  apply zip_any_false_of_left_empty
  intro x hx
  rcases mem_padRight hx with h | h
  · have h0 : goSplitN ':' 4 ([] : List Char) = [[]] := rfl
    rw [h0] at h
    simpa using h
  · exact h

/-- C5: on any record with at least one non-empty field, the encoder emits
the four fields joined with ':' in order User, Role, Type, Level, keeping
empty fields in place. -/
theorem fileLabel_joins_fields (o : SELinuxOptions)
    (h : o.user ≠ [] ∨ o.role ≠ [] ∨ o.type ≠ [] ∨ o.level ≠ []) :
    (SELinuxOptionsToFileLabel (some o)).1 =
      o.user ++ ':' :: (o.role ++ ':' :: (o.type ++ ':' :: o.level)) :=
  fileLabel_eq_join o (by rcases h with h | h | h | h <;> intro hc <;> simp_all)

/-- C5 witness: the scenario record encodes to the scenario string. -/
theorem fileLabel_joins_fields_witness :
    ("system_u".data ≠ [] ∨ "system_r".data ≠ [] ∨
        "container_t".data ≠ [] ∨ "s0:c1,c2".data ≠ []) ∧
      (SELinuxOptionsToFileLabel
          (some ⟨"system_u".data, "system_r".data, "container_t".data,
            "s0:c1,c2".data⟩)).1 =
        "system_u:system_r:container_t:s0:c1,c2".data :=
  ⟨Or.inl (by decide), by
    rw [fileLabel_joins_fields
      ⟨"system_u".data, "system_r".data, "container_t".data, "s0:c1,c2".data⟩
      (Or.inl (by decide))]
    decide⟩

/-- C6: when no field contains ':' and not all fields are empty, splitting
the encoded label on ':' with max count 4 returns exactly the original four
fields. -/
theorem fileLabel_roundTrip (o : SELinuxOptions)
    (hu : ':' ∉ o.user) (hr : ':' ∉ o.role) (ht : ':' ∉ o.type)
    (hl : ':' ∉ o.level)
    (hne : ¬(o.user = [] ∧ o.role = [] ∧ o.type = [] ∧ o.level = [])) :
    goSplitN ':' 4 (SELinuxOptionsToFileLabel (some o)).1 =
      [o.user, o.role, o.type, o.level] := by
  obtain ⟨u, r, t, l⟩ := o
  dsimp only at hu hr ht hl hne ⊢
  rw [show (SELinuxOptionsToFileLabel (some ⟨u, r, t, l⟩)).1 =
      u ++ ':' :: (r ++ ':' :: (t ++ ':' :: l)) from fileLabel_eq_join _ hne]
  have e4 : goSplitN ':' 4 (u ++ ':' :: (r ++ ':' :: (t ++ ':' :: l))) =
      u :: goSplitN ':' 3 (r ++ ':' :: (t ++ ':' :: l)) :=
    goSplitN_split ':' 2 _ hu
  have e3 : goSplitN ':' 3 (r ++ ':' :: (t ++ ':' :: l)) =
      r :: goSplitN ':' 2 (t ++ ':' :: l) :=
    goSplitN_split ':' 1 _ hr
  have e2 : goSplitN ':' 2 (t ++ ':' :: l) = t :: goSplitN ':' 1 l :=
    goSplitN_split ':' 0 _ ht
  have e1 : goSplitN ':' 1 l = [l] := rfl
  rw [e4, e3, e2, e1]

/-- C6 witness: round-trip at a concrete colon-free record. -/
theorem fileLabel_roundTrip_witness :
    (':' ∉ "system_u".data ∧ ':' ∉ "system_r".data ∧ ':' ∉ "container_t".data ∧
        ':' ∉ "s0".data ∧
        ¬("system_u".data = ([] : List Char) ∧ "system_r".data = [] ∧
          "container_t".data = [] ∧ "s0".data = [])) ∧
      goSplitN ':' 4
          (SELinuxOptionsToFileLabel
            (some ⟨"system_u".data, "system_r".data, "container_t".data,
              "s0".data⟩)).1 =
        ["system_u".data, "system_r".data, "container_t".data, "s0".data] :=
  ⟨⟨by decide, by decide, by decide, by decide, by decide⟩,
    fileLabel_roundTrip
      ⟨"system_u".data, "system_r".data, "container_t".data, "s0".data⟩
      (by decide) (by decide) (by decide) (by decide) (by decide)⟩

/-- C7: a label never conflicts with itself. -/
theorem conflicts_self (a : List Char) : Conflicts a a = false := by
  rw [conflicts_of_ge (Nat.lt_irrefl _)]
  rw [padRight_of_le (Nat.le_refl _)]
  exact fieldsConflict_self _

/-- C8: an input with more than 4 colon-delimited fields is compared as the
4-element list produced by the max-count-4 split: its split has length
exactly 4, and `Conflicts` is the positionwise comparison over that
4-element list zipped with the other side padded to 4. -/
theorem conflicts_truncates_to_four (a b : List Char) (h : 4 ≤ a.count ':') :
    (goSplitN ':' 4 a).length = 4 ∧
      Conflicts a b =
        ((goSplitN ':' 4 a).zip (padRight (goSplitN ':' 4 b) 4)).any
          fun p => fieldDiff p.1 p.2 := by
  have hlen : (goSplitN ':' 4 a).length = 4 :=
    goSplitN_length_eq ':' 2 a (by omega)
  have hb : (goSplitN ':' 4 b).length ≤ 4 := goSplitN_length_le ':' 3 b
  have hnotlt : ¬(goSplitN ':' 4 a).length < (goSplitN ':' 4 b).length := by
    omega
  refine ⟨hlen, ?_⟩
  rw [conflicts_of_ge hnotlt, hlen]
  exact fieldsConflict_eq_zip_any _ _ (by rw [padRight_length]; omega)

/-- C8 witness: a 5-field input against a 1-field input. -/
theorem conflicts_truncates_to_four_witness :
    4 ≤ "a:b:c:d:e".data.count ':' ∧
      ((goSplitN ':' 4 "a:b:c:d:e".data).length = 4 ∧
        Conflicts "a:b:c:d:e".data "x".data =
          ((goSplitN ':' 4 "a:b:c:d:e".data).zip
              (padRight (goSplitN ':' 4 "x".data) 4)).any
            fun p => fieldDiff p.1 p.2) :=
  ⟨by decide, conflicts_truncates_to_four "a:b:c:d:e".data "x".data (by decide)⟩

/-- C9: the encoder never fails: the error component is nil on every input. -/
theorem fileLabel_no_error (opts : Option SELinuxOptions) :
    (SELinuxOptionsToFileLabel opts).2 = none := by
  cases opts with
  | none => rfl
  | some o =>
    simp only [SELinuxOptionsToFileLabel]
    split <;> rfl

/-- C10: the non-canonical all-empty encoding ":::" never conflicts with
anything, exactly like the canonical empty string. -/
theorem conflicts_colons_left (x : List Char) :
    Conflicts [':', ':', ':'] x = false := by
  rw [conflicts_eq_spec]
  simp only [specLabelsConflict]
  apply zip_any_false_of_left_empty
  intro y hy
  rcases mem_padRight hy with h | h
  · have h0 : goSplitN ':' 4 [':', ':', ':'] = [[], [], [], []] := rfl
    rw [h0] at h
    simpa using h
  · exact h
